import Mathlib

/-!
Verification development for the WHIRL hybrid-retrieval and SSE-streaming
pipeline (`backend/rag/rag.py` and `backend/api/views.py`).

The Python source is shallowly embedded: pure helper functions become Lean
functions, Python dicts become insertion-ordered association lists with
overwrite-in-place semantics, Python's stable `sorted` becomes
`List.insertionSort` (a stable sort; the output of a stable sort is uniquely
determined by the comparator, so this coincides with CPython's Timsort),
floats become rationals, and IO oracles (the vector store, the BM25 index,
the cross-encoder, the upstream SSE stream) become explicit function or data
parameters.  Fallible oracle calls are modelled with `Option` (`none` = the
call raised).
-/

/-- A retrieved document: `page_content` plus the `source` metadata entry
(`none` when the metadata lacks a `source` key), mirroring the langchain
`Document` objects used in `rag.py`. -/
structure Document where
  content : String
  source : Option String
deriving DecidableEq

/-- Python `text.lower()` restricted to ASCII (all inputs of interest here
are ASCII). -/
def pyLower (text : List Char) : List Char :=
  text.map Char.toLower

/-- A regex word character, Python `\w` over ASCII: alphanumeric or
underscore. -/
def isPyWordChar (c : Char) : Bool :=
  c.isAlphanum || c == '_'

/-- `simple_tokenizer` from `rag.py` lines 38-44: lower-case, then
`re.split(r'\W+', text)`, then drop empty tokens.  Splitting on every single
non-word character (`splitOnP`) differs from splitting on maximal non-word
runs only by extra empty chunks, which the final filter removes, so the
composite is exactly the Python function (over ASCII). -/
def simple_tokenizer (text : List Char) : List (List Char) :=
  ((pyLower text).splitOnP (fun c => !isPyWordChar c)).filter (fun t => !t.isEmpty)

/-- Tokenizer that the spec's words describe: split on runs of
non-*alphanumeric* characters (underscore not special).  Used to compare the
spec sentence against the source's `\W+`-based tokenizer. -/
def spec_tokenizer (text : List Char) : List (List Char) :=
  ((pyLower text).splitOnP (fun c => !c.isAlphanum)).filter (fun t => !t.isEmpty)

/-- Maximal runs of word characters of a string, in order: a direct
recursive description of what `re.split(r'\W+')` + drop-empties computes. -/
def wordRuns : List Char → List (List Char)
  | [] => []
  | c :: cs =>
    if isPyWordChar c then
      ((c :: cs).takeWhile isPyWordChar) :: wordRuns ((c :: cs).dropWhile isPyWordChar)
    else
      wordRuns cs
termination_by l => l.length
decreasing_by
  · simp only [List.dropWhile_cons, *]
    split
    · exact Nat.lt_succ_of_le ((List.dropWhile_sublist _).length_le)
    · simp_all
  · simp

/-- Python dict insertion `d[k] = v` on an insertion-ordered association
list: overwrite in place if the key is present, else append. -/
def dictInsert {α β : Type} [DecidableEq α] (d : List (α × β)) (k : α) (v : β) :
    List (α × β) :=
  if k ∈ d.map Prod.fst then
    d.map (fun p => if p.1 = k then (k, v) else p)
  else
    d ++ [(k, v)]

/-- Python `d[k]` as an option (`none` = `KeyError`): the value of the first
entry with the given key. -/
def assocFind? {α β : Type} [DecidableEq α] (d : List (α × β)) (k : α) : Option β :=
  (d.find? (fun p => decide (p.1 = k))).map Prod.snd

/-- Python `d.get(k, v₀)`. -/
def dictGet {α β : Type} [DecidableEq α] (d : List (α × β)) (k : α) (v₀ : β) : β :=
  match assocFind? d k with
  | some v => v
  | none => v₀

/-- Build a Python dict from a list of key/value pairs in order (later pairs
overwrite earlier ones in place), as a dict comprehension does. -/
def pyDictOfPairs {α β : Type} [DecidableEq α] (l : List (α × β)) : List (α × β) :=
  l.foldl (fun d p => dictInsert d p.1 p.2) []

/-- `rag.py` line 223: `self.over_retrieve_k = 20`. -/
def overRetrieveK : ℕ := 20

/-- `rag.py` line 224: `self.k = 5` (final number of documents after
reranking). -/
def finalK : ℕ := 5

/-- `rag.py` line 469: `k_rrf = 60`. -/
def kRRF : ℚ := 60

/-- `rag.py` lines 447-448: `dense_ranks = {doc.page_content: rank for rank,
(doc, score) in enumerate(dense_results_with_scores)}`.  The argument is the
list of page contents of the dense results in rank order. -/
def dense_ranks (dense : List String) : List (String × ℕ) :=
  pyDictOfPairs (dense.enum.map (fun p => (p.2, p.1)))

/-- `rag.py` line 473: `doc_content_to_index = {doc.page_content: i for i,
doc in enumerate(self.all_documents)}`. -/
def doc_content_to_index (allDocs : List Document) : List (String × ℕ) :=
  pyDictOfPairs (allDocs.enum.map (fun p => (p.2.content, p.1)))

/-- `rag.py` line 485: `sorted(range(len(sparse_scores)), key=lambda i:
sparse_scores[i], reverse=True)` — corpus indices ranked by sparse score
descending, stable (ties keep ascending index order, exactly as Python's
stable sort with `reverse=True` does). -/
def sparseRankedIndices (scores : List ℚ) : List ℕ :=
  List.insertionSort (fun i j => scores.getD j 0 ≤ scores.getD i 0)
    (List.range scores.length)

/-- One conditional RRF update step.  Folds a list of inputs through
`rrf_scores[key] = rrf_scores.get(key, 0.0) + value` for those inputs that
`f` maps to an update (`none` = the loop body skips this input). -/
def rrfFold {γ : Type} (f : γ → Option (ℕ × ℚ)) (l : List γ)
    (init : List (ℕ × ℚ)) : List (ℕ × ℚ) :=
  l.foldl
    (fun rrf x =>
      match f x with
      | some e => dictInsert rrf e.1 (dictGet rrf e.1 0 + e.2)
      | none => rrf)
    init

/-- `rag.py` lines 475-479: for each `(content, rank)` in `dense_ranks`, if
the content occurs in `doc_content_to_index`, add `1/(k_rrf + rank)` to that
document index's fused score; dense results whose content is not found are
silently dropped. -/
def rrfDensePass (allDocs : List Document) (dense : List String) : List (ℕ × ℚ) :=
  rrfFold
    (fun p => (assocFind? (doc_content_to_index allDocs) p.1).map
      (fun i => (i, 1 / (kRRF + (p.2 : ℚ)))))
    (dense_ranks dense) []

/-- `rag.py` lines 487-492: enumerate the top `2 * over_retrieve_k` sparse
ranked indices; for each at rank `r` whose sparse score is `> 0`, add
`1/(k_rrf + r)` to that index's fused score. -/
def rrfSparsePass (rrf0 : List (ℕ × ℚ)) (scores : List ℚ) : List (ℕ × ℚ) :=
  rrfFold
    (fun p => if 0 < scores.getD p.2 0 then some (p.2, 1 / (kRRF + (p.1 : ℚ))) else none)
    (((sparseRankedIndices scores).take (overRetrieveK * 2)).enum) rrf0

/-- `rag.py` lines 468-494: the fused RRF score dict.  The sparse pass runs
only when `len(sparse_scores) == len(self.all_documents)` (line 482);
otherwise (empty or mismatched scores) only the dense pass contributes. -/
def rrf_scores (allDocs : List Document) (dense : List String) (scores : List ℚ) :
    List (ℕ × ℚ) :=
  if scores.length = allDocs.length then
    rrfSparsePass (rrfDensePass allDocs dense) scores
  else
    rrfDensePass allDocs dense

/-- `rag.py` line 497: `sorted(rrf_scores.keys(), key=lambda idx:
rrf_scores[idx], reverse=True)` — stable descending sort of the dict keys by
fused score. -/
def sorted_indices_by_rrf (rrf : List (ℕ × ℚ)) : List ℕ :=
  List.insertionSort (fun i j => dictGet rrf j 0 ≤ dictGet rrf i 0)
    (rrf.map Prod.fst)

/-- Placeholder document for out-of-range indexing (never reached on the
code's inputs: every fused key is a valid corpus index). -/
def defaultDoc : Document := ⟨"", none⟩

/-- `rag.py` lines 501-502: the top `over_retrieve_k` documents by fused
score, i.e. the candidates handed to the reranker. -/
def fusion_candidates (allDocs : List Document) (dense : List String)
    (scores : List ℚ) : List Document :=
  ((sorted_indices_by_rrf (rrf_scores allDocs dense scores)).take overRetrieveK).map
    (fun i => allDocs.getD i defaultDoc)

/-- Comparison used to sort scored documents: descending by rerank score,
documents without a score (`none`, Python's `-inf` default) last, ties kept
in pre-sort order (Python's stable `sorted` with `reverse=True`). -/
def rerankGe (a b : Document × Option ℚ) : Bool :=
  match a.2, b.2 with
  | _, none => true
  | none, some _ => false
  | some x, some y => y ≤ x

/-- `rerank_documents` from `rag.py` lines 377-417.  The reranker model is
`none` when `load_reranker_model` failed (lines 362-375); `predict` returning
`none` models `reranker.predict` raising (lines 398-402).  On either failure
the first `finalK` candidates are returned unchanged; on success documents
are stably sorted by predicted score descending and truncated to `finalK`.
`zip(docs_for_reranking, rerank_scores)` leaves documents beyond the score
list unscored, hence the `Option ℚ` scores via `get?`. -/
def rerank_documents
    (reranker : Option (List (String × String) → Option (List ℚ)))
    (query : String) (docs : List Document) : List Document :=
  if docs.isEmpty then []
  else
    match reranker with
    | none => docs.take finalK
    | some predict =>
      match predict (docs.map (fun d => (query, d.content))) with
      | none => docs.take finalK
      | some scores =>
        let scored := docs.enum.map (fun p => (p.2, scores.get? p.1))
        ((List.insertionSort (fun a b => rerankGe a b = true) scored).map Prod.fst).take
          finalK

/-- The state of a `RAGBot` instance as far as retrieval is concerned.
`vectorstore` is the dense-search oracle (`none` models `self.vectorstore`
unset / ChromaDB unavailable); it returns `(document, distance)` pairs in
rank order.  `bm25_index` is the `get_scores` oracle (`none` models the index
failing to load).  `reranker` is as in `rerank_documents`. -/
structure RagState where
  vectorstore : Option (String → List (Document × ℚ))
  bm25_index : Option (List (List Char) → List ℚ)
  all_documents : List Document
  reranker : Option (List (String × String) → Option (List ℚ))

/-- `rag.py` lines 450-464: the `sparse_scores` array.  Computed via the
BM25 oracle only when the index is loaded, `all_documents` is non-empty and
the query tokenizes non-empty; otherwise `sparse_scores = []`. -/
def bm25SparseScores (st : RagState) (query : String) : List ℚ :=
  match st.bm25_index with
  | some getScores =>
    if !st.all_documents.isEmpty then
      let tq := simple_tokenizer query.data
      if !tq.isEmpty then getScores tq else []
    else []
  | none => []

/-- `retrieve_documents` from `rag.py` lines 419-515: hybrid dense + sparse
retrieval with RRF fusion and reranking.  If the vector store is unset the
function returns `[]` at once (lines 429-431). -/
def retrieve_documents (st : RagState) (query : String) : List Document :=
  match st.vectorstore with
  | none => []
  | some search =>
    let denseResults := search query
    let denseContents := denseResults.map (fun p => p.1.content)
    let sparseScores := bm25SparseScores st query
    let candidates := fusion_candidates st.all_documents denseContents sparseScores
    rerank_documents st.reranker query candidates

/-- Modelled from the spec: the degraded "sparse-only fusion" retrieval that
§4.1 of the spec says the orchestrator falls back to when the dense index is
unavailable ("the orchestrator logs and degrades to sparse-only fusion") —
the same fusion + rerank pipeline with an empty dense contribution.  Used
only to compare the spec's claim C3 with the source's actual behaviour. -/
def sparse_only_retrieve (st : RagState) (query : String) : List Document :=
  let sparseScores := bm25SparseScores st query
  let candidates := fusion_candidates st.all_documents [] sparseScores
  rerank_documents st.reranker query candidates

/-- A conversation turn, Python `{"human": ..., "ai": ...}`. -/
structure Turn where
  human : String
  ai : String
deriving DecidableEq

/-- Python's slice `l[-n:]` — note the `n = 0` quirk: `l[-0:]` is `l[0:]`,
the whole list. -/
def pyTakeLast {α : Type} (l : List α) (n : ℕ) : List α :=
  if n = 0 then l else l.drop (l.length - n)

/-- `add_to_history` from `rag.py` lines 675-681: append the new turn, then
if the history exceeds `max_history_length` keep only the slice
`[-max_history_length:]`. -/
def add_to_history (history : List Turn) (maxLen : ℕ) (userInput aiResponse : String) :
    List Turn :=
  let h := history ++ [⟨userInput, aiResponse⟩]
  if maxLen < h.length then pyTakeLast h maxLen else h

/-- The index of the last element of `l` satisfying `p`, Python `rfind`
(returning `none` instead of `-1` when absent). -/
def rfindIdx (p : Char → Bool) (l : List Char) : Option ℕ :=
  ((l.enum.filter (fun q => p q.2)).map Prod.fst).getLast?

/-- `os.path.splitext(s)[0]` (POSIX): drop the extension at the last dot,
unless that dot only has dots between it and the last path separator
(CPython `genericpath._splitext`). -/
def splitextStemL (l : List Char) : List Char :=
  let sepIndex : ℤ := match rfindIdx (fun c => c == '/') l with
    | some i => (i : ℤ)
    | none => -1
  match rfindIdx (fun c => c == '.') l with
  | some dotIndex =>
    if sepIndex < (dotIndex : ℤ) then
      if l.enum.any (fun q =>
          decide (sepIndex < (q.1 : ℤ)) && decide (q.1 < dotIndex) && (q.2 != '.')) then
        l.take dotIndex
      else l
    else l
  | none => l

/-- `os.path.splitext(filename)[0]` on strings, as used at `rag.py` line
645. -/
def splitextStem (s : String) : String :=
  ⟨splitextStemL s.data⟩

/-- Executable lexicographic comparison of char lists by code point,
matching Python string `<`. -/
def charListLt : List Char → List Char → Bool
  | [], [] => false
  | [], _ :: _ => true
  | _ :: _, [] => false
  | a :: as, b :: bs => if a < b then true else if b < a then false else charListLt as bs

/-- Python string `≤` (lexicographic by code point), executable. -/
def strLeB (a b : String) : Bool :=
  a == b || charListLt a.data b.data

/-- `rag.py` lines 640-646 and 651: the deduplicated, extension-stripped
source identifiers of the retrieved documents, sorted ascending —
`sorted(list(sources))` where `sources` is the set of
`os.path.splitext(doc.metadata['source'])[0]`.  A Lean list with `dedup`
stands in for the Python set; sorting makes the set's iteration order
irrelevant. -/
def sourceNames (documents : List Document) : List String :=
  List.insertionSort (fun a b => strLeB a b = true)
    (((documents.filterMap Document.source).map splitextStem).dedup)

/-- `rag.py` line 648 (and `views.py` line 249): the markdown sources block
appended to the answer text. -/
def sourcesMarkdown (ss : List String) : String :=
  "\n\n---\n**Sources:**\n" ++ String.intercalate "\n" (ss.map (fun s => "- " ++ s))

/-- One SSE event yielded by `generate_response_stream`. -/
inductive GenEvent where
  | token (s : String)
  | sources (ss : List String)
  | errorEv (msg : String)
  | endEv
deriving DecidableEq

/-- The streamer texts actually consumed and kept by the loop at `rag.py`
lines 624-631: the whole stream on success, the first `k` texts when the
generation thread raises after `k` iterations (`errorAfter = some k`), with
empty texts dropped (`if new_text:`). -/
def consumedTokens (streamTokens : List String) (errorAfter : Option ℕ) : List String :=
  (match errorAfter with
    | none => streamTokens
    | some k => streamTokens.take k).filter (fun t => t != "")

/-- The final value of `full_response_for_history` in
`generate_response_stream` (`rag.py` lines 622-655): the concatenated
non-empty streamed texts, plus the sources block when generation succeeded
and the retrieved documents yield at least one source. -/
def gen_full_text (documents : List Document) (streamTokens : List String)
    (errorAfter : Option ℕ) : String :=
  let fullTokens := String.join (consumedTokens streamTokens errorAfter)
  match errorAfter with
  | some _ => fullTokens
  | none =>
    let srcs := sourceNames documents
    if srcs.isEmpty then fullTokens else fullTokens ++ sourcesMarkdown srcs

/-- `generate_response_stream` from `rag.py` lines 547-672, as a function
from the generation outcome to the yielded SSE events and the updated
conversation history.  `llmLoaded = false` models `self.llm_model`/tokenizer
unset (lines 553-557: a lone `error` event, no `end`).  `errorAfter = some k`
models an exception in the streaming loop after `k` streamer texts (lines
658-661: an `error` event, then the `finally` block's `end`).  On success the
sources event is emitted after all token events when there is at least one
source (lines 639-655).  The `finally` block always yields `end` and appends
`(question, full_response_for_history)` to the history iff both are
non-empty (lines 662-672). -/
def generate_response_stream (llmLoaded : Bool) (question : String)
    (documents : List Document) (streamTokens : List String) (errorAfter : Option ℕ)
    (history : List Turn) (maxLen : ℕ) : List GenEvent × List Turn :=
  if !llmLoaded then
    ([GenEvent.errorEv "LLM not initialized"], history)
  else
    let tokenEvents := (consumedTokens streamTokens errorAfter).map GenEvent.token
    let full := gen_full_text documents streamTokens errorAfter
    let finalHist :=
      if question != "" && full != "" then add_to_history history maxLen question full
      else history
    match errorAfter with
    | some _ =>
      (tokenEvents ++ [GenEvent.errorEv "Error during generation", GenEvent.endEv],
       finalHist)
    | none =>
      let srcs := sourceNames documents
      if srcs.isEmpty then
        (tokenEvents ++ [GenEvent.endEv], finalHist)
      else
        (tokenEvents ++ [GenEvent.sources srcs, GenEvent.endEv], finalHist)

/-- One upstream SSE chunk, as classified by the proxy's `startswith`
dispatch (`views.py` lines 212-259).  Chunks are modelled at whole-event
granularity, matching the framing the proxy's own parsing assumes.  `token`
carries the parsed token text, `sources` the parsed source list; `other`
covers chunks matching none of the recognized kinds (including unparsable
ones, whose parse errors the proxy swallows at lines 260-261). -/
inductive Chunk where
  | token (text : String)
  | sources (ss : List String)
  | errorC
  | endC
  | other
deriving DecidableEq

/-- One item yielded by the proxy generator.  `forwarded` is an upstream
chunk passed through verbatim (line 207); the others are produced by the
proxy itself. -/
inductive OutEvent where
  | initE (id : String)
  | pingE (t : ℕ)
  | forwarded (c : Chunk)
  | errorE (kind : String)
  | endE
deriving DecidableEq

/-- Whether a yielded item is an SSE `end` event on the wire: either the
proxy's own `event: end` yield or a forwarded upstream chunk that is itself
an `event: end` event. -/
def isEndEvent : OutEvent → Bool
  | OutEvent.forwarded Chunk.endC => true
  | OutEvent.endE => true
  | _ => false

/-- `views.py` lines 226-251: the effect of one chunk on
`full_response_text` — token texts are appended; a non-empty sources list
appends the markdown sources block; other chunks leave the buffer alone. -/
def applyChunk (full : String) (c : Chunk) : String :=
  match c with
  | Chunk.token t => full ++ t
  | Chunk.sources ss => if ss.isEmpty then full else full ++ sourcesMarkdown ss
  | _ => full

/-- The loop-carried state of the proxy's streaming loop:
`full_response_text`, `error_occurred`, and `last_activity_time`. -/
structure LoopState where
  full : String
  err : Bool
  last : ℕ
deriving DecidableEq

/-- The streaming loop of `views.py` lines 195-264 over timed upstream
chunks `(arrival time, chunk)`.  `fail = some k` models
`response.aiter_text()` raising (`httpx.StreamError`) when the `(k+1)`-st
chunk is pulled; the returned `Bool` is true iff that exception fired.
Each iteration first emits a keep-alive ping if more than 15 seconds passed
since the last activity (lines 197-201), then forwards the chunk (line 207)
and updates the response buffer / error flag; an upstream `end` chunk breaks
the loop after being forwarded (lines 257-259). -/
def proxyLoop : List (ℕ × Chunk) → Option ℕ → LoopState → List OutEvent × LoopState × Bool
  | _, some 0, st => ([], st, true)
  | [], _, st => ([], st, false)
  | (t, c) :: rest, fail, st =>
    let pingEvs := if 15 < t - st.last then [OutEvent.pingE t] else []
    let st1 : LoopState :=
      ⟨applyChunk st.full c, st.err || (c == Chunk.errorC), t⟩
    if c == Chunk.endC then
      (pingEvs ++ [OutEvent.forwarded c], st1, false)
    else
      let next := proxyLoop rest (fail.map (fun n => n - 1)) st1
      (pingEvs ++ OutEvent.forwarded c :: next.1, next.2)

/-- The durable `Interaction` fields the proxy touches, plus a counter of
`interaction.save()` calls. -/
structure InteractionRec where
  error_message : Option String
  final_response_text : Option String
  saves : ℕ
deriving DecidableEq

/-- The upstream's behaviour for one session: either the POST to the RAG
service raises `httpx.RequestError`, or it yields a response with a status
code, a list of timed chunks, and an optional stream failure (as in
`proxyLoop`). -/
inductive ConnectResult where
  | connError
  | response (status : ℕ) (chunks : List (ℕ × Chunk)) (failAfter : Option ℕ)
deriving DecidableEq

/-- `rag_service_sse_proxy_generator` from `views.py` lines 144-314, as a
function from the session's upstream behaviour to the yielded items and the
final interaction record.  `t0` is the time at which the `init` event is
yielded (line 173).  Branches:
* `connError` (lines 268-274): `error_message` set, one `error` + one `end`
  yielded from the `except` block; the `finally` block saves but, since
  `error_occurred` is true, yields no further `end`.
* non-200 status (lines 181-189): `error_message` set, one `error` yielded,
  then `return` — the `finally` block saves but yields no `end` at all.
* 200: the streaming loop runs; a stream failure appends `error` + `end`
  (lines 275-281); the `finally` block (lines 289-312) stores
  `full_response_text` into `final_response_text` iff it is non-empty and no
  error occurred, saves exactly once, and yields a final `end` iff no error
  occurred. -/
def rag_service_sse_proxy_generator (interactionId : String) (t0 : ℕ)
    (conn : ConnectResult) (i0 : InteractionRec) : List OutEvent × InteractionRec :=
  let initEvs := [OutEvent.initE interactionId]
  match conn with
  | ConnectResult.connError =>
    (initEvs ++ [OutEvent.errorE "RAG Service Connection Error", OutEvent.endE],
     { i0 with error_message := some "RAG Service Connection Error",
               saves := i0.saves + 1 })
  | ConnectResult.response status chunks failAfter =>
    if status ≠ 200 then
      (initEvs ++ [OutEvent.errorE "RAG service returned error"],
       { i0 with error_message := some "RAG service returned error",
                 saves := i0.saves + 1 })
    else
      let r := proxyLoop chunks failAfter ⟨"", false, t0⟩
      let st := r.2.1
      let raised := r.2.2
      let errOccurred := st.err || raised
      let i1 :=
        if raised then { i0 with error_message := some "RAG Service Stream Error" }
        else i0
      let i2 :=
        if st.full != "" && !errOccurred then
          { i1 with final_response_text := some st.full }
        else i1
      let raisedEvs :=
        if raised then [OutEvent.errorE "RAG Service Stream Error", OutEvent.endE]
        else []
      let finalEnd := if errOccurred then [] else [OutEvent.endE]
      (initEvs ++ r.1 ++ raisedEvs ++ finalEnd, { i2 with saves := i2.saves + 1 })

/-- The chunks the streaming loop actually consumes and forwards: the input
prefix up to and including the first `end` chunk, further truncated to the
first `k` chunks when the stream fails after `k` (`fail = some k`). -/
def consumedChunks : List (ℕ × Chunk) → Option ℕ → List (ℕ × Chunk)
  | _, some 0 => []
  | [], _ => []
  | (t, c) :: rest, fail =>
    if c == Chunk.endC then [(t, c)]
    else (t, c) :: consumedChunks rest (fail.map (fun n => n - 1))

/-- The keep-alive discipline the spec describes, as a recursive event
builder: before each forwarded chunk, a `ping` is emitted exactly when more
than 15 seconds separate its arrival from the previous activity. -/
def pingInterleave (lastT : ℕ) : List (ℕ × Chunk) → List OutEvent
  | [] => []
  | (t, c) :: rest =>
    (if 15 < t - lastT then [OutEvent.pingE t] else []) ++
      OutEvent.forwarded c :: pingInterleave t rest

/-! ### General lemmas -/

lemma lastN_append_absorb {α : Type} (xs ys : List α) (n : ℕ) :
    ((xs.drop (xs.length - n)) ++ ys).drop
        (((xs.drop (xs.length - n)) ++ ys).length - n) =
      (xs ++ ys).drop ((xs ++ ys).length - n) := by
  have hk : xs.length - n ≤ xs.length := Nat.sub_le _ _
  rw [← List.drop_append_of_le_length hk, List.drop_drop]
  congr 1
  simp only [List.length_drop, List.length_append]
  omega

lemma add_to_history_eq_drop (h : List Turn) (maxLen : ℕ) (q a : String)
    (hpos : 0 < maxLen) (hle : h.length ≤ maxLen) :
    add_to_history h maxLen q a =
      (h ++ [Turn.mk q a]).drop ((h ++ [Turn.mk q a]).length - maxLen) := by
  simp only [add_to_history, pyTakeLast, List.length_append, List.length_cons,
    List.length_nil, Nat.zero_add]
  by_cases hcase : maxLen < h.length + 1
  · rw [if_pos hcase, if_neg (by omega : ¬ maxLen = 0)]
  · rw [if_neg hcase]
    have h0 : h.length + 1 - maxLen = 0 := by omega
    rw [h0, List.drop_zero]

lemma add_to_history_foldl (maxLen : ℕ) (hpos : 0 < maxLen) :
    ∀ (ps : List (String × String)) (h : List Turn), h.length ≤ maxLen →
      ps.foldl (fun acc p => add_to_history acc maxLen p.1 p.2) h =
        (h ++ ps.map (fun p => Turn.mk p.1 p.2)).drop
          ((h ++ ps.map (fun p => Turn.mk p.1 p.2)).length - maxLen)
  | [], h, hle => by
    have h0 : h.length - maxLen = 0 := by omega
    simp [h0]
  | p :: ps, h, hle => by
    have hstep : add_to_history h maxLen p.1 p.2 =
        (h ++ [Turn.mk p.1 p.2]).drop ((h ++ [Turn.mk p.1 p.2]).length - maxLen) :=
      add_to_history_eq_drop h maxLen p.1 p.2 hpos hle
    have hlen : (add_to_history h maxLen p.1 p.2).length ≤ maxLen := by
      rw [hstep]
      simp only [List.length_drop]
      omega
    calc (p :: ps).foldl (fun acc q => add_to_history acc maxLen q.1 q.2) h
        = ps.foldl (fun acc q => add_to_history acc maxLen q.1 q.2)
            (add_to_history h maxLen p.1 p.2) := by rw [List.foldl_cons]
      _ = ((add_to_history h maxLen p.1 p.2) ++ ps.map (fun q => Turn.mk q.1 q.2)).drop
            (((add_to_history h maxLen p.1 p.2) ++ ps.map (fun q => Turn.mk q.1 q.2)).length
              - maxLen) :=
          add_to_history_foldl maxLen hpos ps _ hlen
      _ = (h ++ (p :: ps).map (fun q => Turn.mk q.1 q.2)).drop
            ((h ++ (p :: ps).map (fun q => Turn.mk q.1 q.2)).length - maxLen) := by
          rw [hstep, lastN_append_absorb]
          simp

/-! ### C5 -/

/-- C5: the conversation history is a FIFO-bounded log.  For any positive
configured bound, after any sequence of `add_to_history` calls starting from
the empty history the history holds at most `maxLen` turns; and appending
`maxLen + 3` turns one at a time leaves exactly the last `maxLen` appended
turns in append order (the oldest three evicted). -/
theorem conversation_history_fifo_bound (maxLen : ℕ) (hpos : 0 < maxLen)
    (ps : List (String × String)) :
    (ps.foldl (fun acc p => add_to_history acc maxLen p.1 p.2) []).length ≤ maxLen
    ∧ (ps.length = maxLen + 3 →
        ps.foldl (fun acc p => add_to_history acc maxLen p.1 p.2) [] =
          (ps.map (fun p => Turn.mk p.1 p.2)).drop 3) := by
  have hfold := add_to_history_foldl maxLen hpos ps [] (by simp)
  simp only [List.nil_append] at hfold
  constructor
  · rw [hfold]
    simp only [List.length_drop]
    omega
  · intro hlen
    rw [hfold]
    congr 1
    simp [hlen]

/-- Witness for C5: with `maxLen = 2`, appending five turns leaves the last
two in order. -/
theorem conversation_history_fifo_bound_witness :
    (([("q1", "a1"), ("q2", "a2"), ("q3", "a3"), ("q4", "a4"), ("q5", "a5")].foldl
        (fun acc p => add_to_history acc 2 p.1 p.2) []).length ≤ 2)
    ∧ [("q1", "a1"), ("q2", "a2"), ("q3", "a3"), ("q4", "a4"), ("q5", "a5")].foldl
        (fun acc p => add_to_history acc 2 p.1 p.2) [] =
      ([("q1", "a1"), ("q2", "a2"), ("q3", "a3"), ("q4", "a4"), ("q5", "a5")].map
        (fun p => Turn.mk p.1 p.2)).drop 3 := by
  have h := conversation_history_fifo_bound 2 (by decide)
    [("q1", "a1"), ("q2", "a2"), ("q3", "a3"), ("q4", "a4"), ("q5", "a5")]
  exact ⟨h.1, h.2 rfl⟩

/-! ### C4 -/

/-- C4: if the reranker model is unavailable (`none`) or its prediction
raises (`predict` returns `none`), `rerank_documents` returns exactly the
first `finalK` input candidates unchanged and in input order — in particular
not the empty list when the input is non-empty. -/
theorem rerank_documents_fallback
    (reranker : Option (List (String × String) → Option (List ℚ)))
    (query : String) (docs : List Document) (hne : docs ≠ [])
    (hfail : reranker = none ∨ ∃ predict, reranker = some predict ∧
      predict (docs.map (fun d => (query, d.content))) = none) :
    rerank_documents reranker query docs = docs.take finalK
    ∧ rerank_documents reranker query docs ≠ [] := by
  have hemp : docs.isEmpty = false := by
    simp [List.isEmpty_iff, hne]
  have htake : docs.take finalK ≠ [] := by
    simp only [ne_eq, List.take_eq_nil_iff]
    simp [finalK, hne]
  rcases hfail with hnone | ⟨predict, hpred, hfailp⟩
  · subst hnone
    unfold rerank_documents
    simp only [hemp, Bool.false_eq_true, if_false]
    exact ⟨trivial, htake⟩
  · subst hpred
    unfold rerank_documents
    simp only [hemp, Bool.false_eq_true, if_false, hfailp]
    exact ⟨trivial, htake⟩

/-- Witness for C4: a single-candidate list with the reranker unavailable. -/
theorem rerank_documents_fallback_witness :
    rerank_documents none "q" [⟨"c", none⟩] = [(⟨"c", none⟩ : Document)].take finalK
    ∧ rerank_documents none "q" [⟨"c", none⟩] ≠ [] :=
  rerank_documents_fallback none "q" [⟨"c", none⟩] (by decide) (Or.inl rfl)

/-! ### C10 -/

lemma generate_response_stream_snd (llmLoaded : Bool) (question : String)
    (documents : List Document) (streamTokens : List String) (errorAfter : Option ℕ)
    (history : List Turn) (maxLen : ℕ) :
    (generate_response_stream llmLoaded question documents streamTokens errorAfter
        history maxLen).2 =
      if llmLoaded && (question != "") && (gen_full_text documents streamTokens errorAfter != "")
      then add_to_history history maxLen question
        (gen_full_text documents streamTokens errorAfter)
      else history := by
  cases llmLoaded with
  | false => simp [generate_response_stream]
  | true =>
    simp only [generate_response_stream, Bool.not_true, Bool.false_eq_true, if_false,
      Bool.true_and]
    cases errorAfter with
    | some k => rfl
    | none =>
      by_cases hsrc : (sourceNames documents).isEmpty
      · simp [hsrc]
      · simp [hsrc]

/-- C10: `generate_response_stream` leaves the conversation history
unchanged whenever the question or the accumulated answer text
(`full_response_for_history`, i.e. `gen_full_text`) is empty; and it appends
exactly the `(question, accumulated answer)` pair when the model is loaded
and both are non-empty. -/
theorem history_append_requires_nonempty (llmLoaded : Bool) (question : String)
    (documents : List Document) (streamTokens : List String) (errorAfter : Option ℕ)
    (history : List Turn) (maxLen : ℕ) :
    ((question = "" ∨ gen_full_text documents streamTokens errorAfter = "") →
      (generate_response_stream llmLoaded question documents streamTokens errorAfter
        history maxLen).2 = history)
    ∧ (llmLoaded = true → question ≠ "" →
       gen_full_text documents streamTokens errorAfter ≠ "" →
      (generate_response_stream llmLoaded question documents streamTokens errorAfter
        history maxLen).2 =
        add_to_history history maxLen question
          (gen_full_text documents streamTokens errorAfter)) := by
  rw [generate_response_stream_snd]
  constructor
  · intro hemp
    rcases hemp with hq | hfull
    · simp [hq]
    · simp [hfull]
  · intro hl hq hfull
    simp [hl, hq, hfull]

/-- Witness for C10: a loaded model, non-empty question and a one-token
stream append exactly that pair to the history. -/
theorem history_append_requires_nonempty_witness :
    (generate_response_stream true "q" [] ["a"] none [] 3).2 =
      add_to_history [] 3 "q" (gen_full_text [] ["a"] none) :=
  (history_append_requires_nonempty true "q" [] ["a"] none [] 3).2 rfl
    (by decide) (by decide)

/-! ### C9 -/

/-- C9: on a successful generation run, the deduplicated, extension-stripped
source identifiers of the retrieved documents are emitted as one `sources`
event that follows every `token` event (the event list is exactly the token
events followed by the `sources` event and the final `end`); the same
formatted sources block is appended to the accumulated answer text committed
to history; and when the documents yield no sources, no `sources` event is
emitted at all. -/
theorem generation_sources_event (question : String) (documents : List Document)
    (streamTokens : List String) (history : List Turn) (maxLen : ℕ) :
    (sourceNames documents ≠ [] →
      (generate_response_stream true question documents streamTokens none history
          maxLen).1 =
        ((streamTokens.filter (fun t => t != "")).map GenEvent.token) ++
          [GenEvent.sources (sourceNames documents), GenEvent.endEv])
    ∧ (sourceNames documents = [] →
      ∀ ss, GenEvent.sources ss ∉
        (generate_response_stream true question documents streamTokens none history
          maxLen).1)
    ∧ (sourceNames documents).Nodup
    ∧ (∀ s, s ∈ sourceNames documents ↔
        ∃ f, (∃ doc ∈ documents, doc.source = some f) ∧ splitextStem f = s)
    ∧ (sourceNames documents ≠ [] →
      gen_full_text documents streamTokens none =
        String.join (streamTokens.filter (fun t => t != "")) ++
          sourcesMarkdown (sourceNames documents)) := by
  have hperm := List.perm_insertionSort (fun a b => strLeB a b = true)
    (((documents.filterMap Document.source).map splitextStem).dedup)
  refine ⟨?_, ?_, ?_, ?_, ?_⟩
  · intro hne
    have hsrc : (sourceNames documents).isEmpty = false := by
      simp [List.isEmpty_iff, hne]
    simp [generate_response_stream, hsrc, consumedTokens]
  · intro hnil ss
    have hsrc : (sourceNames documents).isEmpty = true := by
      simp [List.isEmpty_iff, hnil]
    simp [generate_response_stream, hsrc, consumedTokens]
  · exact (List.Perm.nodup_iff hperm).mpr (List.nodup_dedup _)
  · intro s
    rw [sourceNames, List.Perm.mem_iff hperm, List.mem_dedup, List.mem_map]
    constructor
    · rintro ⟨f, hf, hs⟩
      rw [List.mem_filterMap] at hf
      exact ⟨f, hf, hs⟩
    · rintro ⟨f, hf, hs⟩
      exact ⟨f, List.mem_filterMap.mpr hf, hs⟩
  · intro hne
    have hsrc : (sourceNames documents).isEmpty = false := by
      simp [List.isEmpty_iff, hne]
    simp [gen_full_text, hsrc, consumedTokens]

/-- Witness for C9: one retrieved document with source `g.pdf` and a
one-token stream — the stream is the token event, then the `sources` event,
then `end`. -/
theorem generation_sources_event_witness :
    (generate_response_stream true "q" [⟨"c", some "g.pdf"⟩] ["a"] none [] 3).1 =
      (((["a"] : List String).filter (fun t => t != "")).map GenEvent.token) ++
        [GenEvent.sources (sourceNames [⟨"c", some "g.pdf"⟩]), GenEvent.endEv] :=
  (generation_sources_event "q" [⟨"c", some "g.pdf"⟩] ["a"] [] 3).1 (by decide)

/-! ### C6 -/

lemma dropWhile_head_not {α : Type} (p : α → Bool) :
    ∀ (l : List α) (x : α) (xs : List α), l.dropWhile p = x :: xs → p x = false := by
  intro l
  induction l with
  | nil => intro x xs h; simp at h
  | cons a t ih =>
    intro x xs h
    rw [List.dropWhile_cons] at h
    split at h
    · exact ih x xs h
    · cases h
      simp_all

lemma splitOnP_nonword_structure : ∀ (cs : List Char),
    cs.splitOnP (fun c => !isPyWordChar c) =
      (cs.takeWhile isPyWordChar) ::
        (match cs.dropWhile isPyWordChar with
         | [] => []
         | _ :: rest => rest.splitOnP (fun c => !isPyWordChar c)) := by
  intro cs
  induction cs with
  | nil => simp [List.splitOnP_nil]
  | cons a t ih =>
    rw [List.splitOnP_cons]
    cases ha : isPyWordChar a with
    | false =>
      simp only [ha, Bool.not_false, if_true, List.takeWhile_cons, List.dropWhile_cons,
        Bool.false_eq_true, if_false]
    | true =>
      simp only [ha, Bool.not_true, Bool.false_eq_true, if_false, List.takeWhile_cons,
        List.dropWhile_cons, if_true]
      rw [ih]
      rfl

lemma filter_splitOnP_eq_wordRuns : ∀ (l : List Char),
    ((l.splitOnP (fun c => !isPyWordChar c)).filter (fun t => !t.isEmpty)) = wordRuns l := by
  intro l
  induction l using wordRuns.induct with
  | case1 => simp [List.splitOnP_nil, wordRuns]
  | case2 c cs hc ih =>
    rw [splitOnP_nonword_structure, wordRuns]
    simp only [hc, if_true]
    have hdw : (c :: cs).dropWhile isPyWordChar = cs.dropWhile isPyWordChar := by
      simp [List.dropWhile_cons, hc]
    rw [hdw] at ih ⊢
    have hne : ((c :: cs).takeWhile isPyWordChar).isEmpty = false := by
      simp [List.takeWhile_cons, hc]
    rw [List.filter_cons]
    simp only [hne, Bool.not_false, if_true]
    cases hdrop : cs.dropWhile isPyWordChar with
    | nil => simp [wordRuns]
    | cons sep rest =>
      have hsep : isPyWordChar sep = false := dropWhile_head_not _ cs sep rest hdrop
      rw [hdrop] at ih
      rw [List.splitOnP_cons] at ih
      simp only [hsep, Bool.not_false, if_true, List.filter_cons, List.isEmpty_nil,
        Bool.not_true, Bool.false_eq_true, if_false] at ih
      exact congrArg (List.takeWhile isPyWordChar (c :: cs) :: ·) ih
  | case3 c cs hc ih =>
    rw [List.splitOnP_cons]
    simp only [hc, Bool.not_false, if_true, List.filter_cons]
    simp only [List.isEmpty_nil, Bool.not_true, Bool.false_eq_true, if_false]
    rw [ih, wordRuns]
    simp [hc]

/-- C6 counterexample: the claim says the tokenizer splits on runs of
non-alphanumeric characters, but the source splits on `\W+` and `\W` treats
the underscore (a non-alphanumeric character) as a word character, so
`"a_b"` stays one token instead of splitting into two. -/
theorem simple_tokenizer_underscore_counterexample :
    simple_tokenizer ['a', '_', 'b'] ≠ spec_tokenizer ['a', '_', 'b'] := by
  decide

/-- C6 (amended): `simple_tokenizer` lower-cases the text and splits it into
the maximal runs of characters that are alphanumeric **or underscore**
(Python regex word characters), dropping empty tokens; and whenever a query
tokenizes to the empty list, `retrieve_documents` behaves exactly as if the
BM25 index were absent — sparse search is skipped and contributes nothing. -/
theorem simple_tokenizer_word_runs_and_sparse_skip :
    (∀ text : List Char, simple_tokenizer text = wordRuns (pyLower text))
    ∧ (∀ (st : RagState) (query : String), simple_tokenizer query.data = [] →
        retrieve_documents st query =
          retrieve_documents
            ⟨st.vectorstore, none, st.all_documents, st.reranker⟩ query) := by
  constructor
  · intro text
    exact filter_splitOnP_eq_wordRuns (pyLower text)
  · intro st query htok
    have hscores : bm25SparseScores st query = [] := by
      simp only [bm25SparseScores]
      cases st.bm25_index with
      | none => rfl
      | some getScores =>
        simp [htok]
    simp only [retrieve_documents]
    cases hv : st.vectorstore with
    | none => rfl
    | some search =>
      rw [hscores]
      rfl

/-- Witness for C6: the query consisting only of punctuation tokenizes
empty, and retrieval with a loaded BM25 index equals retrieval without
one. -/
theorem simple_tokenizer_word_runs_and_sparse_skip_witness :
    retrieve_documents
        ⟨some (fun _ => []), some (fun _ => [5]), [⟨"alpha", some "a.txt"⟩], none⟩ "!!!" =
      retrieve_documents
        ⟨some (fun _ => []), none, [⟨"alpha", some "a.txt"⟩], none⟩ "!!!" :=
  simple_tokenizer_word_runs_and_sparse_skip.2
    ⟨some (fun _ => []), some (fun _ => [5]), [⟨"alpha", some "a.txt"⟩], none⟩ "!!!"
    (by decide)

/-! ### C3 -/

/-- C3 counterexample: with the vector store unavailable but a usable BM25
index (one document, positive sparse score), `retrieve_documents` returns
`[]` immediately rather than the non-empty result of the spec's degraded
sparse-only fusion, so "returns an empty list only after degrading to
sparse-only fusion" is false. -/
theorem dense_unavailable_no_sparse_fallback_counterexample :
    retrieve_documents
        ⟨none, some (fun _ => [1]), [⟨"alpha", some "a.txt"⟩], none⟩ "alpha" ≠
      sparse_only_retrieve
        ⟨none, some (fun _ => [1]), [⟨"alpha", some "a.txt"⟩], none⟩ "alpha" := by
  with_unfolding_all decide

lemma fusion_candidates_nil (allDocs : List Document) :
    fusion_candidates allDocs [] [] = [] := by
  unfold fusion_candidates rrf_scores
  split
  · rfl
  · rfl

/-- C3 (amended): if the vector store is unavailable `retrieve_documents`
returns `[]` immediately, performing no fusion at all; if the vector store
is available but dense search returns nothing, the result equals the
sparse-only retrieval (fusion output depends only on sparse contributions);
and if additionally the sparse score array is empty, the result is `[]`
(and, the embedding being total, no exception is raised). -/
theorem retrieve_documents_degradation :
    (∀ (st : RagState) (q : String), st.vectorstore = none →
      retrieve_documents st q = [])
    ∧ (∀ (st : RagState) (q : String) (search : String → List (Document × ℚ)),
        st.vectorstore = some search → search q = [] →
        retrieve_documents st q = sparse_only_retrieve st q)
    ∧ (∀ (st : RagState) (q : String) (search : String → List (Document × ℚ)),
        st.vectorstore = some search → search q = [] → bm25SparseScores st q = [] →
        retrieve_documents st q = []) := by
  refine ⟨?_, ?_, ?_⟩
  · intro st q hv
    simp [retrieve_documents, hv]
  · intro st q search hv hq
    simp [retrieve_documents, sparse_only_retrieve, hv, hq]
  · intro st q search hv hq hsparse
    simp only [retrieve_documents, hv, hq, hsparse, List.map_nil]
    rw [fusion_candidates_nil]
    rfl

/-- Witness for C3: a state with the vector store unset returns `[]`. -/
theorem retrieve_documents_degradation_witness :
    retrieve_documents ⟨none, none, [], none⟩ "q" = [] :=
  retrieve_documents_degradation.1 ⟨none, none, [], none⟩ "q" rfl

/-! ### C1 -/

/-- C1 (code-bug evidence): on a non-2xx upstream status the proxy yields an
`error` event and returns without ever yielding an `end` event (zero `end`
events in the whole session), and on a successful session whose upstream
stream itself ends with an `event: end` chunk the proxy forwards that chunk
and then yields its own `end`, so two `end` events reach the client — both
contradicting the invariant of exactly one `end` as the last event. -/
theorem sse_proxy_end_event_count_bug :
    (((rag_service_sse_proxy_generator "i1" 0 (ConnectResult.response 500 [] none)
        ⟨none, none, 0⟩).1.countP (fun e => isEndEvent e)) = 0)
    ∧ (((rag_service_sse_proxy_generator "i1" 0
        (ConnectResult.response 200 [(1, Chunk.endC)] none)
        ⟨none, none, 0⟩).1.countP (fun e => isEndEvent e)) = 2) := by
  decide

/-! ### C8 -/

/-- C8: on terminal transition of every proxy session the interaction record
is saved exactly once; the accumulated response text is written to
`final_response_text` only when no upstream error occurred (no upstream
`error` event, no stream failure, no connection failure, no bad status) and
the accumulated text is non-empty; on every error path the field is left
unchanged (while `error_message` may be set). -/
theorem sse_proxy_persistence (id : String) (t0 : ℕ) (conn : ConnectResult)
    (i0 : InteractionRec) :
    ((rag_service_sse_proxy_generator id t0 conn i0).2.saves = i0.saves + 1)
    ∧ (conn = ConnectResult.connError →
        (rag_service_sse_proxy_generator id t0 conn i0).2.final_response_text =
          i0.final_response_text)
    ∧ (∀ (s : ℕ) (chunks : List (ℕ × Chunk)) (fa : Option ℕ),
        conn = ConnectResult.response s chunks fa → s ≠ 200 →
        (rag_service_sse_proxy_generator id t0 conn i0).2.final_response_text =
          i0.final_response_text)
    ∧ (∀ (chunks : List (ℕ × Chunk)) (fa : Option ℕ),
        conn = ConnectResult.response 200 chunks fa →
        (((proxyLoop chunks fa ⟨"", false, t0⟩).2.1.err
            || (proxyLoop chunks fa ⟨"", false, t0⟩).2.2) = true →
          (rag_service_sse_proxy_generator id t0 conn i0).2.final_response_text =
            i0.final_response_text)
        ∧ (((proxyLoop chunks fa ⟨"", false, t0⟩).2.1.err
            || (proxyLoop chunks fa ⟨"", false, t0⟩).2.2) = false →
          ((proxyLoop chunks fa ⟨"", false, t0⟩).2.1.full ≠ "" →
            (rag_service_sse_proxy_generator id t0 conn i0).2.final_response_text =
              some (proxyLoop chunks fa ⟨"", false, t0⟩).2.1.full)
          ∧ ((proxyLoop chunks fa ⟨"", false, t0⟩).2.1.full = "" →
            (rag_service_sse_proxy_generator id t0 conn i0).2.final_response_text =
              i0.final_response_text))) := by
  cases conn with
  | connError =>
    refine ⟨rfl, fun _ => rfl, ?_, ?_⟩
    · intro s chunks fa h
      cases h
    · intro chunks fa h
      cases h
  | response s chunks fa =>
    by_cases hs : s = 200
    · subst hs
      have hstat : ¬ ((200 : ℕ) ≠ 200) := by simp
      refine ⟨?_, ?_, ?_, ?_⟩
      · simp only [rag_service_sse_proxy_generator]
        rw [if_neg hstat]
        dsimp only
        split <;> split <;> rfl
      · intro h
        cases h
      · intro s' chunks' fa' h hne
        cases h
        exact absurd rfl hne
      · intro chunks' fa' h
        cases h
        refine ⟨?_, ?_⟩
        · intro herr
          simp only [rag_service_sse_proxy_generator]
          rw [if_neg hstat]
          dsimp only
          simp only [herr, Bool.not_true, Bool.and_false, Bool.false_eq_true, if_false]
          split <;> rfl
        · intro herr
          have hraised : (proxyLoop chunks fa ⟨"", false, t0⟩).2.2 = false :=
            (Bool.or_eq_false_iff.mp herr).2
          have herrc : (proxyLoop chunks fa ⟨"", false, t0⟩).2.1.err = false :=
            (Bool.or_eq_false_iff.mp herr).1
          refine ⟨?_, ?_⟩
          · intro hfull
            simp only [rag_service_sse_proxy_generator]
            rw [if_neg hstat]
            dsimp only
            simp [herr, hraised, herrc, hfull]
          · intro hfull
            simp only [rag_service_sse_proxy_generator]
            rw [if_neg hstat]
            dsimp only
            simp [herr, hraised, herrc, hfull]
    · refine ⟨?_, ?_, ?_, ?_⟩
      · simp only [rag_service_sse_proxy_generator]
        rw [if_pos hs]
      · intro h
        cases h
      · intro s' chunks' fa' h hne
        cases h
        simp only [rag_service_sse_proxy_generator]
        rw [if_pos hs]
      · intro chunks' fa' h
        cases h
        exact absurd rfl hs

/-- Witness for C8: a 200 session with a single token chunk persists the
accumulated text. -/
theorem sse_proxy_persistence_witness :
    (rag_service_sse_proxy_generator "i1" 0
        (ConnectResult.response 200 [(1, Chunk.token "x")] none)
        ⟨none, none, 0⟩).2.final_response_text =
      some (proxyLoop [(1, Chunk.token "x")] none ⟨"", false, 0⟩).2.1.full :=
  ((((sse_proxy_persistence "i1" 0
      (ConnectResult.response 200 [(1, Chunk.token "x")] none)
      ⟨none, none, 0⟩).2.2.2 [(1, Chunk.token "x")] none rfl).2 (by decide)).1 (by decide))

/-! ### C7 -/

lemma proxyLoop_some_zero (chunks : List (ℕ × Chunk)) (st : LoopState) :
    proxyLoop chunks (some 0) st = ([], st, true) := by
  cases chunks <;> rfl

lemma consumedChunks_some_zero (chunks : List (ℕ × Chunk)) :
    consumedChunks chunks (some 0) = [] := by
  cases chunks <;> rfl

lemma proxyLoop_cons (t : ℕ) (c : Chunk) (rest : List (ℕ × Chunk)) (fail : Option ℕ)
    (st : LoopState) (hf : fail ≠ some 0) :
    proxyLoop ((t, c) :: rest) fail st =
      (let pingEvs := if 15 < t - st.last then [OutEvent.pingE t] else []
       let st1 : LoopState := ⟨applyChunk st.full c, st.err || (c == Chunk.errorC), t⟩
       if c == Chunk.endC then
         (pingEvs ++ [OutEvent.forwarded c], st1, false)
       else
         let next := proxyLoop rest (fail.map (fun n => n - 1)) st1
         (pingEvs ++ OutEvent.forwarded c :: next.1, next.2)) := by
  match fail with
  | none => rfl
  | some 0 => exact absurd rfl hf
  | some (k + 1) => rfl

lemma consumedChunks_cons (t : ℕ) (c : Chunk) (rest : List (ℕ × Chunk))
    (fail : Option ℕ) (hf : fail ≠ some 0) :
    consumedChunks ((t, c) :: rest) fail =
      (if c == Chunk.endC then [(t, c)]
       else (t, c) :: consumedChunks rest (fail.map (fun n => n - 1))) := by
  match fail with
  | none => rfl
  | some 0 => exact absurd rfl hf
  | some (k + 1) => rfl

lemma proxyLoop_events_eq :
    ∀ (chunks : List (ℕ × Chunk)) (fail : Option ℕ) (st : LoopState),
      (proxyLoop chunks fail st).1 = pingInterleave st.last (consumedChunks chunks fail) := by
  intro chunks
  induction chunks with
  | nil =>
    intro fail st
    match fail with
    | none => rfl
    | some 0 => rfl
    | some (k + 1) => rfl
  | cons hd tl ih =>
    intro fail st
    obtain ⟨t, c⟩ := hd
    by_cases hf : fail = some 0
    · subst hf
      rw [proxyLoop_some_zero, consumedChunks_some_zero]
      rfl
    · rw [proxyLoop_cons t c tl fail st hf, consumedChunks_cons t c tl fail hf]
      dsimp only
      by_cases hc : (c == Chunk.endC) = true
      · rw [if_pos hc, if_pos hc]
        rfl
      · rw [if_neg hc, if_neg hc]
        rw [ih (fail.map (fun n => n - 1)) ⟨applyChunk st.full c, st.err || (c == Chunk.errorC), t⟩]
        rfl

/-- The arrival time of the last chunk of a list, or the given default when
the list is empty: the value of `last_activity_time` after forwarding the
listed chunks. -/
def lastTimeOf (d : ℕ) (xs : List (ℕ × Chunk)) : ℕ :=
  match xs.getLast? with
  | some p => p.1
  | none => d

lemma lastTimeOf_cons (d t : ℕ) (c : Chunk) (xs : List (ℕ × Chunk)) :
    lastTimeOf d ((t, c) :: xs) = lastTimeOf t xs := by
  cases xs with
  | nil => rfl
  | cons y ys =>
    have hsome : ((y :: ys).getLast?).isSome := by
      rw [List.getLast?_isSome]
      simp
    obtain ⟨p, hp⟩ := Option.isSome_iff_exists.mp hsome
    simp [lastTimeOf, List.getLast?_cons_cons, hp]

lemma pingInterleave_append :
    ∀ (xs ys : List (ℕ × Chunk)) (lastT : ℕ),
      pingInterleave lastT (xs ++ ys) =
        pingInterleave lastT xs ++ pingInterleave (lastTimeOf lastT xs) ys := by
  intro xs
  induction xs with
  | nil => intro ys lastT; rfl
  | cons hd tl ih =>
    intro ys lastT
    obtain ⟨t, c⟩ := hd
    rw [List.cons_append, pingInterleave, pingInterleave, ih ys t, lastTimeOf_cons]
    simp [List.append_assoc]

/-- C7: keep-alive discipline of the proxy loop.  The forwarded stream is
exactly the consumed chunks interleaved with keep-alive pings: before each
forwarded chunk a `ping` is emitted iff more than 15 seconds separate its
arrival from the previous activity.  Consequently, for any two consecutive
forwarded chunks the proxy emits a ping between them when the gap exceeds 15
seconds and emits nothing between them when the gap is 15 seconds or less
(in particular for a 10-second gap). -/
theorem sse_proxy_keepalive (chunks : List (ℕ × Chunk)) (fail : Option ℕ)
    (st : LoopState) :
    (proxyLoop chunks fail st).1 = pingInterleave st.last (consumedChunks chunks fail)
    ∧ (∀ (pre post : List (ℕ × Chunk)) (t1 t2 : ℕ) (c1 c2 : Chunk),
        consumedChunks chunks fail = pre ++ (t1, c1) :: (t2, c2) :: post →
        ∃ l1 l3, (proxyLoop chunks fail st).1 =
          l1 ++ OutEvent.forwarded c1 ::
            ((if 15 < t2 - t1 then [OutEvent.pingE t2] else []) ++
              OutEvent.forwarded c2 :: l3)) := by
  refine ⟨proxyLoop_events_eq chunks fail st, ?_⟩
  intro pre post t1 t2 c1 c2 hsplit
  rw [proxyLoop_events_eq chunks fail st, hsplit]
  have hre : pre ++ (t1, c1) :: (t2, c2) :: post =
      (pre ++ [(t1, c1)]) ++ ((t2, c2) :: post) := by
    simp
  rw [hre, pingInterleave_append, pingInterleave_append]
  have hlast : lastTimeOf st.last (pre ++ [(t1, c1)]) = t1 := by
    simp [lastTimeOf, List.getLast?_concat]
  refine ⟨pingInterleave st.last pre ++
    (if 15 < t1 - lastTimeOf st.last pre then [OutEvent.pingE t1] else []), 
    pingInterleave t2 post, ?_⟩
  rw [hlast]
  simp [pingInterleave, List.append_assoc]

/-- Witness for C7: two token chunks 17 seconds apart — a ping is emitted
between the two forwarded chunks. -/
theorem sse_proxy_keepalive_witness :
    ∃ l1 l3,
      (proxyLoop [(16, Chunk.token "a"), (33, Chunk.token "b")] none ⟨"", false, 0⟩).1 =
        l1 ++ OutEvent.forwarded (Chunk.token "a") ::
          ((if 15 < 33 - 16 then [OutEvent.pingE 33] else []) ++
            OutEvent.forwarded (Chunk.token "b") :: l3) :=
  (sse_proxy_keepalive [(16, Chunk.token "a"), (33, Chunk.token "b")] none
      ⟨"", false, 0⟩).2 [] [] 16 33 (Chunk.token "a") (Chunk.token "b") (by decide)

/-! ### C2 -/

lemma assocFind?_cons {α β : Type} [DecidableEq α] (a : α × β) (t : List (α × β)) (k : α) :
    assocFind? (a :: t) k = if a.1 = k then some a.2 else assocFind? t k := by
  by_cases h : a.1 = k <;> simp [assocFind?, List.find?_cons, h]

lemma assocFind?_append {α β : Type} [DecidableEq α] (l₁ l₂ : List (α × β)) (k : α) :
    assocFind? (l₁ ++ l₂) k = (assocFind? l₁ k).or (assocFind? l₂ k) := by
  unfold assocFind?
  rw [List.find?_append]
  cases l₁.find? (fun p => decide (p.1 = k)) <;> simp

lemma assocFind?_eq_none_of_not_mem {α β : Type} [DecidableEq α]
    (l : List (α × β)) (k : α) (h : k ∉ l.map Prod.fst) :
    assocFind? l k = none := by
  unfold assocFind?
  cases hf : l.find? (fun p => decide (p.1 = k)) with
  | none => rfl
  | some p =>
    have hp : p.1 = k := by
      have := List.find?_some hf
      simpa using this
    have hmem : p ∈ l := List.mem_of_find?_eq_some hf
    exact absurd (List.mem_map.mpr ⟨p, hmem, hp⟩) h

lemma assocFind?_isSome_of_mem {α β : Type} [DecidableEq α]
    (l : List (α × β)) (k : α) (h : k ∈ l.map Prod.fst) :
    (assocFind? l k).isSome := by
  rcases List.mem_map.mp h with ⟨p, hp, hfst⟩
  unfold assocFind?
  cases hf : l.find? (fun p => decide (p.1 = k)) with
  | none =>
    have hsome : (l.find? (fun p => decide (p.1 = k))).isSome :=
      List.find?_isSome.mpr ⟨p, hp, by simp [hfst]⟩
    rw [hf] at hsome
    simp at hsome
  | some q => simp

lemma assocFind?_keyupdate {α β : Type} [DecidableEq α] (k k' : α) (v : β) :
    ∀ l : List (α × β),
      assocFind? (l.map (fun p => if p.1 = k then (k, v) else p)) k' =
        if k' = k then (assocFind? l k).map (fun _ => v) else assocFind? l k' := by
  intro l
  induction l with
  | nil => by_cases h : k' = k <;> simp [assocFind?, h]
  | cons a t ih =>
    rw [List.map_cons]
    by_cases hak : a.1 = k
    · by_cases hk : k' = k
      · subst hk
        simp [assocFind?_cons, hak]
      · have hkk' : ¬ k = k' := fun he => hk he.symm
        have h2 : ¬ a.1 = k' := by rw [hak]; exact hkk'
        simp [assocFind?_cons, hak, hk, h2, hkk', ih]
    · by_cases hk : k' = k
      · subst hk
        simp [assocFind?_cons, hak, ih]
      · by_cases hak' : a.1 = k'
        · simp [assocFind?_cons, hak, hak', hk]
        · simp [assocFind?_cons, hak, hak', hk, ih]

lemma assocFind?_dictInsert {α β : Type} [DecidableEq α]
    (l : List (α × β)) (k k' : α) (v : β) :
    assocFind? (dictInsert l k v) k' = if k' = k then some v else assocFind? l k' := by
  unfold dictInsert
  by_cases hmem : k ∈ l.map Prod.fst
  · rw [if_pos hmem, assocFind?_keyupdate]
    by_cases hk : k' = k
    · rw [if_pos hk, if_pos hk]
      obtain ⟨w, hw⟩ := Option.isSome_iff_exists.mp (assocFind?_isSome_of_mem l k hmem)
      rw [hw]
      rfl
    · rw [if_neg hk, if_neg hk]
  · rw [if_neg hmem, assocFind?_append]
    by_cases hk : k' = k
    · subst hk
      rw [assocFind?_eq_none_of_not_mem l k' hmem]
      simp [assocFind?_cons]
    · have hkk' : ¬ k = k' := fun he => hk he.symm
      have hnone : assocFind? [(k, v)] k' = none := by
        simp [assocFind?_cons, hkk', assocFind?]
      rw [hnone, Option.or_none, if_neg hk]

lemma dictGet_dictInsert {α β : Type} [DecidableEq α]
    (l : List (α × β)) (k k' : α) (v v₀ : β) :
    dictGet (dictInsert l k v) k' v₀ = if k' = k then v else dictGet l k' v₀ := by
  unfold dictGet
  rw [assocFind?_dictInsert]
  by_cases hk : k' = k <;> simp [hk]

lemma rrfFold_cons {γ : Type} (f : γ → Option (ℕ × ℚ)) (a : γ) (t : List γ)
    (init : List (ℕ × ℚ)) :
    rrfFold f (a :: t) init =
      rrfFold f t
        (match f a with
         | some e => dictInsert init e.1 (dictGet init e.1 0 + e.2)
         | none => init) := rfl

lemma dictGet_nil {α β : Type} [DecidableEq α] (k : α) (v₀ : β) :
    dictGet ([] : List (α × β)) k v₀ = v₀ := rfl

lemma dictGet_rrfFold {γ : Type} (f : γ → Option (ℕ × ℚ)) :
    ∀ (l : List γ) (init : List (ℕ × ℚ)) (d : ℕ),
      dictGet (rrfFold f l init) d 0 = dictGet init d 0 +
        (l.map (fun x =>
          match f x with
          | some e => if e.1 = d then e.2 else 0
          | none => 0)).sum := by
  intro l
  induction l with
  | nil => intro init d; simp [rrfFold]
  | cons a t ih =>
    intro init d
    rw [rrfFold_cons, List.map_cons, List.sum_cons]
    cases hfa : f a with
    | none =>
      rw [ih init d]
      simp
    | some e =>
      rw [ih _ d, dictGet_dictInsert]
      dsimp only
      by_cases hd : d = e.1
      · have hd' : e.1 = d := hd.symm
        rw [if_pos hd, if_pos hd', hd']
        ring
      · have hd' : ¬ e.1 = d := fun he => hd he.symm
        rw [if_neg hd, if_neg hd']
        ring

lemma foldl_dictInsert_acc {α β : Type} [DecidableEq α] :
    ∀ (l acc : List (α × β)), ((acc ++ l).map Prod.fst).Nodup →
      l.foldl (fun d p => dictInsert d p.1 p.2) acc = acc ++ l := by
  intro l
  induction l with
  | nil => intro acc h; simp
  | cons p t ih =>
    intro acc h
    have hnotmem : p.1 ∉ acc.map Prod.fst := by
      intro hmemacc
      rw [List.map_append] at h
      exact (List.disjoint_of_nodup_append h) hmemacc (by simp)
    have hins : dictInsert acc p.1 p.2 = acc ++ [p] := by
      unfold dictInsert
      rw [if_neg hnotmem]
    rw [List.foldl_cons, hins, ih (acc ++ [p]) (by simpa using h)]
    simp

lemma pyDictOfPairs_eq_self {α β : Type} [DecidableEq α] (l : List (α × β))
    (h : (l.map Prod.fst).Nodup) :
    pyDictOfPairs l = l := by
  have := foldl_dictInsert_acc l [] (by simpa using h)
  simpa [pyDictOfPairs] using this

lemma findIdx?_start {α : Type} (p : α → Bool) :
    ∀ (l : List α) (i : ℕ),
      List.findIdx? p l i = (List.findIdx? p l).map (fun r => r + i) := by
  intro l
  induction l with
  | nil => intro i; simp
  | cons a t ih =>
    intro i
    rw [List.findIdx?_cons, List.findIdx?_cons]
    by_cases hpa : p a = true
    · simp [hpa]
    · simp only [hpa, Bool.false_eq_true, if_false]
      rw [ih (i + 1), ih (0 + 1)]
      cases h : List.findIdx? p t with
      | none => simp
      | some r =>
        simp only [Option.map_some']
        congr 1
        omega

lemma findIdx?_of_pred_false {α : Type} (p : α → Bool) :
    ∀ (l : List α), (∀ x ∈ l, p x = false) → List.findIdx? p l = none := by
  intro l
  induction l with
  | nil => intro _; simp
  | cons a t ih =>
    intro h
    rw [List.findIdx?_cons]
    rw [h a (by simp)]
    simp only [Bool.false_eq_true, if_false]
    rw [findIdx?_start, ih (fun x hx => h x (by simp [hx]))]
    rfl

lemma sum_enumFrom_unique {α : Type} (f : ℕ → ℚ) (P : α → Prop) [DecidablePred P] :
    ∀ (l : List α) (off : ℕ), l.Nodup → (∀ x y, P x → P y → x = y) →
      ((List.enumFrom off l).map (fun q => if P q.2 then f q.1 else 0)).sum =
        match List.findIdx? (fun x => decide (P x)) l with
        | some r => f (off + r)
        | none => 0 := by
  intro l
  induction l with
  | nil => intro off _ _; simp
  | cons a t ih =>
    intro off hnd hu
    rw [List.enumFrom_cons, List.map_cons, List.sum_cons, List.findIdx?_cons]
    by_cases hpa : P a
    · have hz : ((List.enumFrom (off + 1) t).map (fun q => if P q.2 then f q.1 else 0)).sum
          = 0 := by
        apply List.sum_eq_zero
        intro x hx
        rcases List.mem_map.mp hx with ⟨q, hq, hqx⟩
        obtain ⟨i, y⟩ := q
        have hy : y ∈ t := by
          have hmem := List.mem_enumFrom hq
          rcases hmem with ⟨_, hlt, hget⟩
          rw [hget]
          exact List.getElem_mem _
        have hpy : ¬ P y := by
          intro hpy
          have : y = a := hu y a hpy hpa
          subst this
          exact (List.nodup_cons.mp hnd).1 hy
        rw [← hqx]
        simp [hpy]
      rw [hz]
      simp [hpa]
    · have hrec := ih (off + 1) (List.nodup_cons.mp hnd).2
        (fun x y hx hy => hu x y hx hy)
      rw [hrec]
      simp only [hpa, decide_False, Bool.false_eq_true, if_false, zero_add]
      rw [findIdx?_start (fun x => decide (P x)) t (0 + 1)]
      cases h : List.findIdx? (fun x => decide (P x)) t with
      | none => simp
      | some r =>
        simp only [Option.map_some']
        congr 1
        omega

lemma findIdx?_eq_pred {α : Type} [DecidableEq α] (c : α) :
    ∀ (l : List α) (i : ℕ), l.Nodup →
      (List.findIdx? (fun x => decide (x = c)) l = some i ↔ l.get? i = some c) := by
  intro l
  induction l with
  | nil => intro i _; simp
  | cons a t ih =>
    intro i hnd
    rw [List.findIdx?_cons]
    by_cases hac : a = c
    · subst hac
      simp only [decide_True, if_true]
      constructor
      · intro he
        have : i = 0 := (Option.some.inj he).symm
        subst this
        rfl
      · intro hg
        cases i with
        | zero => rfl
        | succ j =>
          have hmem : a ∈ t := by
            have : t.get? j = some a := hg
            exact List.get?_mem this
          exact absurd hmem (List.nodup_cons.mp hnd).1
    · simp only [hac, decide_False, Bool.false_eq_true, if_false]
      rw [findIdx?_start (fun x => decide (x = c)) t (0 + 1)]
      cases i with
      | zero =>
        constructor
        · intro he
          cases hf : List.findIdx? (fun x => decide (x = c)) t with
          | none => rw [hf] at he; simp at he
          | some r => rw [hf] at he; simp at he
        · intro hg
          have : a = c := Option.some.inj hg
          exact absurd this hac
      | succ j =>
        rw [show ((a :: t).get? (j + 1)) = t.get? j from rfl]
        rw [← ih j (List.nodup_cons.mp hnd).2]
        cases hf : List.findIdx? (fun x => decide (x = c)) t with
        | none => simp
        | some r =>
          simp only [Option.map_some', Option.some.injEq]
          omega

lemma assocFind?_enumFrom_swap {α : Type} [DecidableEq α] :
    ∀ (l : List α) (off : ℕ) (c : α),
      assocFind? ((List.enumFrom off l).map (fun p => (p.2, p.1))) c =
        (List.findIdx? (fun x => decide (x = c)) l).map (fun r => off + r) := by
  intro l
  induction l with
  | nil => intro off c; simp [assocFind?]
  | cons a t ih =>
    intro off c
    rw [List.enumFrom_cons, List.map_cons, assocFind?_cons, List.findIdx?_cons]
    by_cases hac : a = c
    · simp [hac]
    · simp only [hac, decide_False, Bool.false_eq_true, if_false]
      rw [ih (off + 1) c]
      rw [findIdx?_start (fun x => decide (x = c)) t (0 + 1)]
      cases hf : List.findIdx? (fun x => decide (x = c)) t with
      | none => simp
      | some r =>
        simp only [Option.map_some']
        congr 1
        omega

lemma doc_content_to_index_eq (allDocs : List Document)
    (hA : (allDocs.map Document.content).Nodup) :
    doc_content_to_index allDocs =
      (List.enumFrom 0 (allDocs.map Document.content)).map (fun p => (p.2, p.1)) := by
  unfold doc_content_to_index
  have hshape : allDocs.enum.map (fun p => (p.2.content, p.1)) =
      (List.enumFrom 0 (allDocs.map Document.content)).map (fun p => (p.2, p.1)) := by
    rw [List.enumFrom_map, List.map_map, List.enum_eq_enumFrom]
    rfl
  rw [hshape]
  apply pyDictOfPairs_eq_self
  rw [List.map_map]
  have : (Prod.fst ∘ fun p : ℕ × String => (p.2, p.1)) = Prod.snd := rfl
  rw [this]
  rw [← List.enum_eq_enumFrom, List.enum_map_snd]
  exact hA

lemma assocFind?_doc_content (allDocs : List Document)
    (hA : (allDocs.map Document.content).Nodup) (c : String) :
    assocFind? (doc_content_to_index allDocs) c =
      List.findIdx? (fun x => decide (x = c)) (allDocs.map Document.content) := by
  rw [doc_content_to_index_eq allDocs hA, assocFind?_enumFrom_swap]
  cases hf : List.findIdx? (fun x => decide (x = c)) (allDocs.map Document.content) with
  | none => rfl
  | some r => simp

lemma dense_ranks_eq (dense : List String) (hD : dense.Nodup) :
    dense_ranks dense = (List.enumFrom 0 dense).map (fun p => (p.2, p.1)) := by
  unfold dense_ranks
  rw [List.enum_eq_enumFrom]
  apply pyDictOfPairs_eq_self
  rw [List.map_map]
  have : (Prod.fst ∘ fun p : ℕ × String => (p.2, p.1)) = Prod.snd := rfl
  rw [this, ← List.enum_eq_enumFrom, List.enum_map_snd]
  exact hD

lemma dense_pass_score (allDocs : List Document) (dense : List String) (d : ℕ)
    (hA : (allDocs.map Document.content).Nodup) (hD : dense.Nodup) :
    dictGet (rrfDensePass allDocs dense) d 0 =
      (match (allDocs.map Document.content).get? d with
       | some c =>
         (match List.findIdx? (fun x => decide (x = c)) dense with
          | some r => 1 / (kRRF + (r : ℚ))
          | none => 0)
       | none => 0) := by
  unfold rrfDensePass
  rw [dictGet_rrfFold, dictGet_nil, zero_add]
  rw [dense_ranks_eq dense hD, List.map_map]
  have hcongr : ∀ q ∈ List.enumFrom 0 dense,
      ((fun x : String × ℕ =>
          match (assocFind? (doc_content_to_index allDocs) x.1).map
              (fun i => (i, 1 / (kRRF + (x.2 : ℚ)))) with
          | some e => if e.1 = d then e.2 else 0
          | none => 0) ∘ (fun p : ℕ × String => (p.2, p.1))) q =
        if (allDocs.map Document.content).get? d = some q.2 then 1 / (kRRF + (q.1 : ℚ))
        else 0 := by
    intro q _
    dsimp only [Function.comp]
    rw [assocFind?_doc_content allDocs hA q.2]
    cases hf : List.findIdx? (fun x => decide (x = q.2)) (allDocs.map Document.content) with
    | none =>
      dsimp only [Option.map_none']
      by_cases hg : (allDocs.map Document.content).get? d = some q.2
      · have := (findIdx?_eq_pred q.2 (allDocs.map Document.content) d hA).mpr hg
        rw [hf] at this
        cases this
      · rw [if_neg hg]
    | some i =>
      dsimp only [Option.map_some']
      by_cases hid : i = d
      · subst hid
        have hg := (findIdx?_eq_pred q.2 (allDocs.map Document.content) i hA).mp hf
        rw [if_pos rfl, if_pos hg]
      · by_cases hg : (allDocs.map Document.content).get? d = some q.2
        · have := (findIdx?_eq_pred q.2 (allDocs.map Document.content) d hA).mpr hg
          rw [hf] at this
          exact absurd (Option.some.inj this) hid
        · rw [if_neg hid, if_neg hg]
  rw [List.map_congr_left hcongr]
  rw [sum_enumFrom_unique (fun r => 1 / (kRRF + (r : ℚ)))
    (fun c => (allDocs.map Document.content).get? d = some c) dense 0 hD
    (fun x y hx hy => Option.some.inj (hx.symm.trans hy))]
  cases hgd : (allDocs.map Document.content).get? d with
  | none =>
    rw [findIdx?_of_pred_false _ dense (fun x _ => by simp [hgd])]
  | some cd =>
    have hpe : (fun x : String => decide ((some cd : Option String) = some x)) =
        fun x => decide (x = cd) := by
      funext x
      simp [eq_comm]
    rw [hpe]
    dsimp only
    cases hf : List.findIdx? (fun x => decide (x = cd)) dense with
    | none => rfl
    | some r => simp

lemma sparseRankedIndices_nodup (scores : List ℚ) : (sparseRankedIndices scores).Nodup :=
  ((List.perm_insertionSort _ _).nodup_iff).mpr (List.nodup_range _)

lemma sparse_pass_score (rrf0 : List (ℕ × ℚ)) (scores : List ℚ) (d : ℕ) :
    dictGet (rrfSparsePass rrf0 scores) d 0 = dictGet rrf0 d 0 +
      (match List.findIdx? (fun i => decide (i = d))
          ((sparseRankedIndices scores).take (overRetrieveK * 2)) with
       | some r => if 0 < scores.getD d 0 then 1 / (kRRF + (r : ℚ)) else 0
       | none => 0) := by
  unfold rrfSparsePass
  rw [dictGet_rrfFold]
  congr 1
  have hnd : ((sparseRankedIndices scores).take (overRetrieveK * 2)).Nodup :=
    (List.take_sublist _ _).nodup (sparseRankedIndices_nodup scores)
  rw [List.enum_eq_enumFrom]
  have hcongr : ∀ q ∈ List.enumFrom 0 ((sparseRankedIndices scores).take (overRetrieveK * 2)),
      (fun x : ℕ × ℕ =>
        match (if 0 < scores.getD x.2 0 then some (x.2, 1 / (kRRF + (x.1 : ℚ))) else none) with
        | some e => if e.1 = d then e.2 else 0
        | none => 0) q =
      if q.2 = d ∧ 0 < scores.getD q.2 0 then 1 / (kRRF + (q.1 : ℚ)) else 0 := by
    intro q _
    dsimp only
    by_cases hpos : 0 < scores.getD q.2 0
    · rw [if_pos hpos]
      dsimp only
      by_cases hqd : q.2 = d
      · rw [if_pos hqd, if_pos ⟨hqd, hpos⟩]
      · rw [if_neg hqd, if_neg (fun h => hqd h.1)]
    · rw [if_neg hpos]
      dsimp only
      rw [if_neg (fun h : q.2 = d ∧ 0 < scores.getD q.2 0 => hpos h.2)]
  rw [List.map_congr_left hcongr]
  rw [sum_enumFrom_unique (fun r => 1 / (kRRF + (r : ℚ)))
    (fun i => i = d ∧ 0 < scores.getD i 0)
    ((sparseRankedIndices scores).take (overRetrieveK * 2)) 0 hnd
    (fun x y hx hy => hx.1.trans hy.1.symm)]
  by_cases hpos : 0 < scores.getD d 0
  · have hpe : (fun i : ℕ => decide (i = d ∧ 0 < scores.getD i 0)) =
        fun i => decide (i = d) := by
      funext i
      rw [decide_eq_decide]
      constructor
      · exact fun h => h.1
      · intro h
        exact ⟨h, h ▸ hpos⟩
    rw [hpe]
    cases hf : List.findIdx? (fun i => decide (i = d))
        ((sparseRankedIndices scores).take (overRetrieveK * 2)) with
    | none => rfl
    | some r =>
      dsimp only
      rw [if_pos hpos, Nat.zero_add]
  · rw [findIdx?_of_pred_false _ ((sparseRankedIndices scores).take (overRetrieveK * 2))
      (fun x _ => decide_eq_false
        (fun h : x = d ∧ 0 < scores.getD x 0 => hpos (h.1 ▸ h.2)))]
    cases hf : List.findIdx? (fun i => decide (i = d))
        ((sparseRankedIndices scores).take (overRetrieveK * 2)) with
    | none => rfl
    | some r =>
      dsimp only
      rw [if_neg hpos]

/-- C2: RRF correctness.  For a fixed dense ranked list (with distinct
contents, all-documents contents also distinct) and a sparse score array of
matching length, the fused score of document index `d` is the sum of a dense
term — `1/(60 + r)` when the content of document `d` appears at (0-based)
rank `r` in the dense list, else `0` — and a sparse term — `1/(60 + r)` when
`d` appears at rank `r` among the top `2·overRetrieveK` sparse-ranked
indices *and* its sparse score is strictly positive, else `0`.  Moreover the
fusion candidates are the first `overRetrieveK` of the key list sorted by
fused score descending (a stable permutation of the fused keys). -/
theorem rrf_fused_score_formula (allDocs : List Document) (dense : List String)
    (scores : List ℚ) (hA : (allDocs.map Document.content).Nodup) (hD : dense.Nodup)
    (hlen : scores.length = allDocs.length) :
    (∀ d : ℕ,
      dictGet (rrf_scores allDocs dense scores) d 0 =
        (match (allDocs.map Document.content).get? d with
         | some c =>
           match List.findIdx? (fun x => decide (x = c)) dense with
           | some r => 1 / (kRRF + (r : ℚ))
           | none => 0
         | none => 0)
        +
        (match List.findIdx? (fun i => decide (i = d))
            ((sparseRankedIndices scores).take (overRetrieveK * 2)) with
         | some r => if 0 < scores.getD d 0 then 1 / (kRRF + (r : ℚ)) else 0
         | none => 0))
    ∧ (sorted_indices_by_rrf (rrf_scores allDocs dense scores)).Perm
        ((rrf_scores allDocs dense scores).map Prod.fst)
    ∧ List.Pairwise (fun i j =>
        dictGet (rrf_scores allDocs dense scores) j 0 ≤
          dictGet (rrf_scores allDocs dense scores) i 0)
        (sorted_indices_by_rrf (rrf_scores allDocs dense scores))
    ∧ fusion_candidates allDocs dense scores =
        ((sorted_indices_by_rrf (rrf_scores allDocs dense scores)).take overRetrieveK).map
          (fun i => allDocs.getD i defaultDoc) := by
  have hsc : rrf_scores allDocs dense scores =
      rrfSparsePass (rrfDensePass allDocs dense) scores := by
    unfold rrf_scores
    rw [if_pos hlen]
  refine ⟨?_, ?_, ?_, ?_⟩
  · intro d
    rw [hsc, sparse_pass_score, dense_pass_score allDocs dense d hA hD]
  · exact List.perm_insertionSort _ _
  · letI : IsTotal ℕ (fun i j =>
        dictGet (rrf_scores allDocs dense scores) j 0 ≤
          dictGet (rrf_scores allDocs dense scores) i 0) := ⟨fun a b => le_total _ _⟩
    letI : IsTrans ℕ (fun i j =>
        dictGet (rrf_scores allDocs dense scores) j 0 ≤
          dictGet (rrf_scores allDocs dense scores) i 0) :=
      ⟨fun a b c hab hbc => le_trans hbc hab⟩
    exact List.sorted_insertionSort _ _
  · rfl

/-- Witness for C2: a two-document corpus, dense list containing only the
second document, sparse scores `[1, 2]`; the fused score of document `1`. -/
theorem rrf_fused_score_formula_witness :
    dictGet (rrf_scores [⟨"a", none⟩, ⟨"b", none⟩] ["b"] [1, 2]) 1 0 =
      (match (List.map Document.content [⟨"a", none⟩, ⟨"b", none⟩]).get? 1 with
       | some c =>
         match List.findIdx? (fun x => decide (x = c)) ["b"] with
         | some r => 1 / (kRRF + (r : ℚ))
         | none => 0
       | none => 0)
      +
      (match List.findIdx? (fun i => decide (i = 1))
          ((sparseRankedIndices [1, 2]).take (overRetrieveK * 2)) with
       | some r => if 0 < ([1, 2] : List ℚ).getD 1 0 then 1 / (kRRF + (r : ℚ)) else 0
       | none => 0) :=
  (rrf_fused_score_formula [⟨"a", none⟩, ⟨"b", none⟩] ["b"] [1, 2]
    (by decide) (by decide) rfl).1 1
